import Mathlib

/-!
Verification of the disk-bloom classic Bloom filter (`filter.go`).

The file state is modelled as a total byte function `ℕ → ℕ` (byte value at
each absolute file offset); for `New`, which needs end-of-file behaviour, the
file is a finite byte list `List ℕ`.  Machine integers (`uint64`, `uint8`,
`uint16`) are modelled as `ℕ` with explicit reductions `% 2 ^ 64` where the Go
arithmetic wraps.  The caller-supplied double hash is an arbitrary function
`List ℕ → ℕ × ℕ` (its outputs are `uint64` values; the wrap in `bloomOffset`
makes the model agree with Go for any natural inputs).

`Exist` and `ExistOrAdd` ignore the error results of `ReadAt`/`WriteAt` in the
source; the models `ExistX`/`ExistOrAddX` make this explicit with failure
predicates `rfail`/`wfail`: a failed single-byte read leaves the zero-
initialised buffer untouched (byte 0), a failed write leaves the file
unchanged, and neither failure is reported to the caller.  The error-free
instances `Exist`/`ExistOrAdd` specialise both predicates to `false`.
-/

namespace DiskBloom

/-- FsyncMode from the source; the durability/background-flush machinery
itself is concurrent and is not modelled. -/
inductive FsyncMode
  | always
  | everySec
  | no
deriving DecidableEq

/-- LenOfMetadataSize = 2: the length of the little-endian size header. -/
def LenOfMetadataSize : ℕ := 2

/-- FilterParam: `Slots` is the hash count (uint8), `Bits` the bit count
(uint64), `Hash` the caller-supplied double hash over an entry. -/
structure FilterParam where
  Slots : ℕ
  Bits : ℕ
  Hash : List ℕ → ℕ × ℕ

/-- Controller configuration.  The `Control` hook receives an OS file handle
and runs on a background goroutine; it is outside the shallow embedding and
omitted here.  `GetParam` maps the persisted metadata (or none, for a fresh
file) to the filter parameters and an optional replacement metadata. -/
structure Controller where
  Fsync : FsyncMode
  MetadataSize : ℕ
  GetParam : Option (List ℕ) → FilterParam × Option (List ℕ)

/-- DiskFilter instance state used by the membership operations: the filter
parameters and the controller's declared metadata size (the only controller
field the operations read). -/
structure DiskFilter where
  param : FilterParam
  metadataSize : ℕ

/-- bloomOffset: `(x + uint64(i)*y) % f.param.Bits`.  The Go addition and
multiplication are on `uint64` and wrap; `((x + i*y) % 2^64)` equals the
wrapped Go value for all natural `x`, `y`, `i`. -/
def bloomOffset (p : FilterParam) (x y i : ℕ) : ℕ :=
  ((x + i * y) % 2 ^ 64) % p.Bits

/-- fileOffset: absolute file position of a bit-field byte offset. -/
def fileOffset (f : DiskFilter) (byteOff : ℕ) : ℕ :=
  LenOfMetadataSize + f.metadataSize + byteOff

/-- bytePos: absolute file position of the byte holding bloom offset `off`
(`fileOffset(off/8)` in the source). -/
def bytePos (f : DiskFilter) (off : ℕ) : ℕ :=
  fileOffset f (off / 8)

/-- bloomOffsets: the `Slots` bloom offsets of an entry, in computation
order (`offsets[i] = f.bloomOffset(x, y, i)`). -/
def bloomOffsets (f : DiskFilter) (e : List ℕ) : List ℕ :=
  (List.range f.param.Slots).map
    (fun i => bloomOffset f.param (f.param.Hash e).1 (f.param.Hash e).2 i)

/-- sortedOffsets: the offsets sorted ascending (`sort.Slice`) before disk
access. -/
def sortedOffsets (f : DiskFilter) (e : List ℕ) : List ℕ :=
  List.insertionSort (· ≤ ·) (bloomOffsets f e)

/-- effRead: the byte actually obtained by a single-byte `ReadAt` whose error
result is discarded: on failure the zero-initialised buffer is returned. -/
def effRead (file : ℕ → ℕ) (rfail : ℕ → Bool) : ℕ → ℕ :=
  fun pos => bif rfail pos then 0 else file pos

/-- readCachedByte: the shared read-or-cache step (`if val, ok := m[pos]`),
returning the byte and the updated cache. -/
def readCachedByte (read : ℕ → ℕ) (m : ℕ → Option ℕ) (pos : ℕ) :
    ℕ × (ℕ → Option ℕ) :=
  match m pos with
  | some v => (v, m)
  | none => (read pos, fun q => if q = pos then some (read pos) else m q)

/-- existLoop: the read loop of `Exist`, returning `false` as soon as a
consulted bit is clear. -/
def existLoop (f : DiskFilter) (read : ℕ → ℕ) :
    List ℕ → (ℕ → Option ℕ) → Bool
  | [], _ => true
  | off :: rest, m =>
    let rc := readCachedByte read m (bytePos f off)
    if rc.1 &&& (1 <<< (off % 8)) = 0 then false
    else existLoop f read rest rc.2

/-- ExistX: `Exist` with explicit read-failure behaviour (failures are
swallowed by the source, acting as zero bytes). -/
def ExistX (f : DiskFilter) (file : ℕ → ℕ) (rfail : ℕ → Bool)
    (e : List ℕ) : Bool :=
  existLoop f (effRead file rfail) (sortedOffsets f e) (fun _ => none)

/-- Exist in the error-free case. -/
def Exist (f : DiskFilter) (file : ℕ → ℕ) (e : List ℕ) : Bool :=
  ExistX f file (fun _ => false) e

/-- addLoop: the first loop of `ExistOrAdd`: reads (through the cache), clears
`exist` when a consulted cached bit is clear, and ORs the mask into the
cache (`m[pos] |= 1 << (offset % 8)`). -/
def addLoop (f : DiskFilter) (read : ℕ → ℕ) :
    List ℕ → (ℕ → Option ℕ) → Bool → Bool × (ℕ → Option ℕ)
  | [], m, ex => (ex, m)
  | off :: rest, m, ex =>
    let pos := bytePos f off
    let rc := readCachedByte read m pos
    let ex1 := if rc.1 &&& (1 <<< (off % 8)) = 0 then false else ex
    addLoop f read rest
      (fun q => if q = pos then some (rc.1 ||| (1 <<< (off % 8))) else rc.2 q)
      ex1

/-- writeBack: the second loop of `ExistOrAdd`: for each offset whose byte is
still cached, write the cached byte (the `WriteAt` error result is discarded,
so on `wfail` the file keeps its old byte) and delete the cache entry. -/
def writeBack (f : DiskFilter) (wfail : ℕ → Bool) :
    List ℕ → (ℕ → Option ℕ) → (ℕ → ℕ) → (ℕ → ℕ) × (ℕ → Option ℕ)
  | [], m, file => (file, m)
  | off :: rest, m, file =>
    let pos := bytePos f off
    match m pos with
    | some v =>
      writeBack f wfail rest (fun q => if q = pos then none else m q)
        (bif wfail pos then file else fun q => if q = pos then v else file q)
    | none => writeBack f wfail rest m file

/-- AddResult: the caller-visible result of `ExistOrAdd` together with the
instance state it mutates (the file bytes and the `modified` flag). -/
structure AddResult where
  exist : Bool
  file : ℕ → ℕ
  modified : Bool

/-- ExistOrAddX: `ExistOrAdd` with explicit read/write-failure behaviour.
When every consulted cached bit was set it returns early without writing and
without touching the `modified` flag; otherwise it writes back the cached
bytes and sets `modified`. -/
def ExistOrAddX (f : DiskFilter) (file : ℕ → ℕ) (rfail wfail : ℕ → Bool)
    (e : List ℕ) (modified : Bool) : AddResult :=
  let offs := sortedOffsets f e
  let r1 := addLoop f (effRead file rfail) offs (fun _ => none) true
  if r1.1 then ⟨true, file, modified⟩
  else ⟨false, (writeBack f wfail offs r1.2 file).1, true⟩

/-- ExistOrAdd in the error-free case. -/
def ExistOrAdd (f : DiskFilter) (file : ℕ → ℕ) (e : List ℕ)
    (modified : Bool) : AddResult :=
  ExistOrAddX f file (fun _ => false) (fun _ => false) e modified

/-- FilterOp: one caller-visible membership operation. -/
inductive FilterOp
  | exist (e : List ℕ)
  | existOrAdd (e : List ℕ)

/-- runOps: the file contents after a sequence of membership operations
(`Exist` performs no writes; `ExistOrAdd` replaces the file with its written
state). -/
def runOps (f : DiskFilter) : List FilterOp → (ℕ → ℕ) → (ℕ → ℕ)
  | [], file => file
  | .exist _ :: rest, file => runOps f rest file
  | .existOrAdd e :: rest, file => runOps f rest (ExistOrAdd f file e false).file

/-- Size: `f.param.Bits / 8` (integer division, i.e. floor). -/
def Size (f : DiskFilter) : ℕ := f.param.Bits / 8

/-- NewErr: the failures `New` can return: an OS-level read error (modelled
for the end-of-file cases of `ReadAt`) or `InconsistentMetadataSizeErr`. -/
inductive NewErr
  | readEOF
  | inconsistentMetadataSize
deriving DecidableEq

/-- writeByteAt: `WriteAt` of a single byte; writing past the end of the file
zero-fills the gap (sparse allocation). -/
def writeByteAt (file : List ℕ) (pos v : ℕ) : List ℕ :=
  if pos < file.length then file.set pos v
  else file ++ List.replicate (pos - file.length) 0 ++ [v]

/-- writeBytesAt: `WriteAt` of a byte sequence starting at `pos`. -/
def writeBytesAt : List ℕ → ℕ → List ℕ → List ℕ
  | file, _, [] => file
  | file, pos, v :: rest => writeBytesAt (writeByteAt file pos v) (pos + 1) rest

/-- headerVal: the persisted metadata size,
`binary.LittleEndian.Uint16(file[0:2])`. -/
def headerVal (file : List ℕ) : ℕ :=
  file.getD 0 0 + 256 * file.getD 1 0

/-- finishNew: the tail of `New` shared by the create and reopen paths: if
`GetParam` returned replacement metadata, its length must equal the declared
metadata size (else `InconsistentMetadataSizeErr`), and it is written over the
metadata region. -/
def finishNew (ctrl : Controller) (pu : FilterParam × Option (List ℕ))
    (file : List ℕ) : Except NewErr FilterParam × List ℕ :=
  match pu.2 with
  | none => (.ok pu.1, file)
  | some md =>
    if md.length ≠ ctrl.MetadataSize then (.error .inconsistentMetadataSize, file)
    else (.ok pu.1, writeBytesAt file LenOfMetadataSize md)

/-- New: open-or-create.  On an empty (fresh) file it sparse-allocates by
writing one byte at `2 + MetadataSize + Bits/8`, then writes the 2-byte
little-endian header, then runs the replacement-metadata check.  On an
existing file it reads the header (EOF on a 1-byte file), rejects a mismatch
with `InconsistentMetadataSizeErr`, reads the metadata region (EOF if the file
is too short) and passes it to `GetParam`.  The final file contents are
returned alongside the result. -/
def New (ctrl : Controller) (file : List ℕ) :
    Except NewErr FilterParam × List ℕ :=
  if file.length = 0 then
    let pu := ctrl.GetParam none
    let f1 := writeByteAt file (LenOfMetadataSize + ctrl.MetadataSize + pu.1.Bits / 8) 0
    let f2 := writeBytesAt f1 0 [ctrl.MetadataSize % 256, ctrl.MetadataSize / 256 % 256]
    finishNew ctrl pu f2
  else if file.length < LenOfMetadataSize then (.error .readEOF, file)
  else if headerVal file ≠ ctrl.MetadataSize then
    (.error .inconsistentMetadataSize, file)
  else if file.length < LenOfMetadataSize + ctrl.MetadataSize then
    (.error .readEOF, file)
  else
    finishNew ctrl
      (ctrl.GetParam (some ((file.drop LenOfMetadataSize).take ctrl.MetadataSize)))
      file

/-- bitGet: whether bit `k` of the byte at `pos` is set, as tested by the
source (`b & (1 << k) != 0`). -/
def bitGet (file : ℕ → ℕ) (pos k : ℕ) : Bool :=
  file pos &&& (1 <<< k) != 0

/-- allBitsSet: all offsets of the list have their bit set in the file. -/
def allBitsSet (f : DiskFilter) (file : ℕ → ℕ) (offs : List ℕ) : Bool :=
  offs.all (fun off => bitGet file (bytePos f off) (off % 8))

/-- orMasks: the OR of the masks `1 <<< (off % 8)` of the offsets of the list
that live in the byte at `pos`. -/
def orMasks (f : DiskFilter) : List ℕ → ℕ → ℕ
  | [], _ => 0
  | o :: rest, pos =>
    (if bytePos f o = pos then 1 <<< (o % 8) else 0) ||| orMasks f rest pos

/-- cacheOf: the cache state of `ExistOrAdd`'s first loop after processing the
offsets of `done`: each touched byte position holds its file byte with the
masks of the processed offsets OR-ed in. -/
def cacheOf (f : DiskFilter) (read : ℕ → ℕ) (done : List ℕ) :
    ℕ → Option ℕ :=
  fun pos =>
    if pos ∈ done.map (bytePos f) then some (read pos ||| orMasks f done pos)
    else none

/-- IsBlank: every byte of the bit field (and of the metadata region) is zero,
as on a freshly created file. -/
def IsBlank (f : DiskFilter) (file : ℕ → ℕ) : Prop :=
  ∀ q, LenOfMetadataSize + f.metadataSize ≤ q → file q = 0

/-- okBits: the bit count carried by a successful `New` result. -/
def okBits : Except NewErr FilterParam → Option ℕ
  | .ok p => some p.Bits
  | .error _ => none

/-- OptimalParamSlots: real-valued idealization of the hash-count computation
of `OptimalParam`: `k := -math.Log(p) * math.Log2E; uint8(k + 0.5)`.  The
float64 arithmetic is modelled as exact real arithmetic and `math.Log2E` as
`1 / ln 2`; Go's conversion `uint8(·)` truncates its nonnegative argument
toward zero, i.e. takes the floor (the model is meaningful for arguments
inside the uint8 range, where the conversion is defined). -/
noncomputable def OptimalParamSlots (p : ℝ) : ℤ :=
  ⌊-Real.log p * (1 / Real.log 2) + 1 / 2⌋

/-! Basic bit-level lemmas. -/

theorem shiftLeft_one (k : ℕ) : (1 : ℕ) <<< k = 2 ^ k := by
  rw [Nat.shiftLeft_eq, one_mul]

theorem and_mask_zero_iff (b k : ℕ) :
    (b &&& (1 <<< k) = 0) ↔ b.testBit k = false := by
  rw [shiftLeft_one, Nat.and_two_pow]
  have h2 : (2 : ℕ) ^ k ≠ 0 := (Nat.pos_pow_of_pos k (by norm_num)).ne'
  cases h : b.testBit k <;> simp [h, h2]

theorem bitGet_eq_testBit (file : ℕ → ℕ) (pos k : ℕ) :
    bitGet file pos k = (file pos).testBit k := by
  rw [bitGet]
  cases h : (file pos).testBit k
  · simp [bne_eq_false_iff_eq, (and_mask_zero_iff _ _).mpr h]
  · have : ¬(file pos &&& 1 <<< k = 0) := by
      intro hz
      rw [(and_mask_zero_iff _ _).mp hz] at h
      exact Bool.false_ne_true h
    simp [bne_iff_ne, this]

theorem bytePos_inj (f : DiskFilter) {o off : ℕ}
    (h1 : bytePos f o = bytePos f off) (h2 : o % 8 = off % 8) : o = off := by
  rw [bytePos, bytePos, fileOffset, fileOffset] at h1
  omega

/-! Lemmas about `orMasks`. -/

theorem testBit_orMasks (f : DiskFilter) (offs : List ℕ) (pos k : ℕ) :
    (orMasks f offs pos).testBit k = true ↔
      ∃ o ∈ offs, bytePos f o = pos ∧ o % 8 = k := by
  induction offs with
  | nil => simp [orMasks]
  | cons o rest ih =>
    rw [orMasks, Nat.testBit_or]
    by_cases hb : bytePos f o = pos
    · by_cases hk : o % 8 = k
      · simp [hb, hk, shiftLeft_one, Nat.testBit_two_pow]
      · simp only [if_pos hb, shiftLeft_one, Nat.testBit_two_pow, Bool.or_eq_true,
          decide_eq_true_eq, ih, List.mem_cons]
        constructor
        · rintro (h | ⟨w, hw, hwb, hwk⟩)
          · exact absurd h hk
          · exact ⟨w, .inr hw, hwb, hwk⟩
        · rintro ⟨w, hw | hw, hwb, hwk⟩
          · subst hw; exact absurd hwk hk
          · exact .inr ⟨w, hw, hwb, hwk⟩
    · simp only [if_neg hb, Nat.zero_testBit, Bool.false_or, ih, List.mem_cons]
      constructor
      · rintro ⟨w, hw, hwb, hwk⟩; exact ⟨w, .inr hw, hwb, hwk⟩
      · rintro ⟨w, hw | hw, hwb, hwk⟩
        · subst hw; exact absurd hwb hb
        · exact ⟨w, hw, hwb, hwk⟩

theorem testBit_orMasks_self (f : DiskFilter) (done : List ℕ) (off : ℕ) :
    (orMasks f done (bytePos f off)).testBit (off % 8) = decide (off ∈ done) := by
  by_cases h : off ∈ done
  · rw [decide_eq_true h]
    exact (testBit_orMasks f done _ _).mpr ⟨off, h, rfl, rfl⟩
  · rw [decide_eq_false h, ← Bool.not_eq_true]
    intro hc
    obtain ⟨o, ho, hob, hok⟩ := (testBit_orMasks f done _ _).mp hc
    exact h (bytePos_inj f hob hok ▸ ho)

theorem orMasks_append (f : DiskFilter) (l1 l2 : List ℕ) (pos : ℕ) :
    orMasks f (l1 ++ l2) pos = orMasks f l1 pos ||| orMasks f l2 pos := by
  induction l1 with
  | nil => simp [orMasks]
  | cons o rest ih => rw [List.cons_append, orMasks, orMasks, ih, Nat.or_assoc]

theorem orMasks_eq_zero (f : DiskFilter) (done : List ℕ) (pos : ℕ)
    (h : pos ∉ done.map (bytePos f)) : orMasks f done pos = 0 := by
  induction done with
  | nil => rfl
  | cons o rest ih =>
    rw [orMasks, if_neg (fun hc => h (by simp [hc])), Nat.zero_or]
    exact ih (fun hc => h (by simp at hc ⊢; exact .inr hc))

/-! Characterization of the read-cache states reached by the loops. -/

theorem cacheOf_nil (f : DiskFilter) (read : ℕ → ℕ) :
    cacheOf f read [] = fun _ => none := by
  funext q; simp [cacheOf]

theorem readCached_cacheOf (f : DiskFilter) (read : ℕ → ℕ) (done : List ℕ)
    (pos : ℕ) :
    readCachedByte read (cacheOf f read done) pos =
      (read pos ||| orMasks f done pos,
       fun q => if q = pos ∧ pos ∉ done.map (bytePos f) then some (read pos)
                else cacheOf f read done q) := by
  rw [readCachedByte]
  by_cases hmem : pos ∈ done.map (bytePos f)
  · have hsome : cacheOf f read done pos = some (read pos ||| orMasks f done pos) := by
      rw [cacheOf]; exact if_pos hmem
    rw [hsome]
    dsimp only
    refine Prod.ext rfl ?_
    funext q
    dsimp only
    rw [if_neg (fun hc : q = pos ∧ pos ∉ done.map (bytePos f) => hc.2 hmem)]
  · have hnone : cacheOf f read done pos = none := by
      rw [cacheOf]; exact if_neg hmem
    rw [hnone]
    dsimp only
    refine Prod.ext ?_ ?_
    · dsimp only
      rw [orMasks_eq_zero f done pos hmem, Nat.or_zero]
    · dsimp only
      funext q
      by_cases hq : q = pos
      · rw [if_pos hq, if_pos ⟨hq, hmem⟩]
      · rw [if_neg hq, if_neg (fun hc => hq hc.1)]

theorem cacheOf_snoc_self (f : DiskFilter) (read : ℕ → ℕ) (done : List ℕ)
    (off : ℕ) :
    cacheOf f read (done ++ [off]) (bytePos f off) =
      some (read (bytePos f off) ||| orMasks f done (bytePos f off)
             ||| 1 <<< (off % 8)) := by
  rw [cacheOf, if_pos (by simp), orMasks_append, orMasks, orMasks, if_pos rfl,
    Nat.or_zero, Nat.or_assoc]

theorem cacheOf_snoc_ne (f : DiskFilter) (read : ℕ → ℕ) (done : List ℕ)
    (off q : ℕ) (hq : q ≠ bytePos f off) :
    cacheOf f read (done ++ [off]) q = cacheOf f read done q := by
  have hmem : q ∈ (done ++ [off]).map (bytePos f) ↔ q ∈ done.map (bytePos f) := by
    simp only [List.map_append, List.mem_append, List.map_cons, List.map_nil,
      List.mem_singleton]
    exact ⟨fun h => h.resolve_right hq, Or.inl⟩
  have hmask : orMasks f (done ++ [off]) q = orMasks f done q := by
    rw [orMasks_append, orMasks, orMasks, if_neg (fun hc => hq hc.symm),
      Nat.zero_or, Nat.or_zero]
  rw [cacheOf, cacheOf, hmask]
  by_cases h : q ∈ done.map (bytePos f)
  · rw [if_pos (hmem.mpr h), if_pos h]
  · rw [if_neg (fun hc => h (hmem.mp hc)), if_neg h]

theorem if_mask_and (c ex : Bool) : (if c = false then false else ex) = (ex && c) := by
  cases c <;> cases ex <;> rfl

theorem all_snoc_done (f : DiskFilter) (read : ℕ → ℕ) (rest done : List ℕ)
    (off : ℕ)
    (hA : (bitGet read (bytePos f off) (off % 8) || decide (off ∈ done)) = true) :
    (rest.all fun o => bitGet read (bytePos f o) (o % 8) || decide (o ∈ done ++ [off]))
      = rest.all fun o => bitGet read (bytePos f o) (o % 8) || decide (o ∈ done) := by
  rw [Bool.eq_iff_iff, List.all_eq_true, List.all_eq_true]
  constructor
  · intro H o ho
    have h1 := H o ho
    by_cases he : o = off
    · subst he; exact hA
    · have hiff : (o ∈ done ++ [off]) ↔ (o ∈ done) := by
        simp only [List.mem_append, List.mem_singleton]
        exact ⟨fun h => h.resolve_right he, Or.inl⟩
      rwa [decide_eq_decide.mpr hiff] at h1
  · intro H o ho
    have h1 := H o ho
    cases hb : bitGet read (bytePos f o) (o % 8) with
    | true => rw [Bool.true_or]
    | false =>
      rw [hb, Bool.false_or] at h1
      rw [Bool.false_or]
      exact decide_eq_true (List.mem_append.mpr (.inl (of_decide_eq_true h1)))

theorem addLoop_eq (f : DiskFilter) (read : ℕ → ℕ) (offs : List ℕ) :
    ∀ (done : List ℕ) (ex : Bool),
    addLoop f read offs (cacheOf f read done) ex =
      (ex && offs.all (fun o => bitGet read (bytePos f o) (o % 8) || decide (o ∈ done)),
       cacheOf f read (done ++ offs)) := by
  induction offs with
  | nil =>
    intro done ex
    simp [addLoop]
  | cons off rest ih =>
    intro done ex
    simp only [addLoop]
    rw [readCached_cacheOf f read done (bytePos f off)]
    dsimp only
    have hcond : ((read (bytePos f off) ||| orMasks f done (bytePos f off))
          &&& 1 <<< (off % 8) = 0)
        ↔ ((bitGet read (bytePos f off) (off % 8) || decide (off ∈ done)) = false) := by
      rw [and_mask_zero_iff, Nat.testBit_or, bitGet_eq_testBit, testBit_orMasks_self]
    have hupd : (fun q => if q = bytePos f off
          then some (read (bytePos f off) ||| orMasks f done (bytePos f off)
                      ||| 1 <<< (off % 8))
          else if q = bytePos f off ∧ bytePos f off ∉ done.map (bytePos f)
               then some (read (bytePos f off)) else cacheOf f read done q)
        = cacheOf f read (done ++ [off]) := by
      funext q
      by_cases hq : q = bytePos f off
      · rw [if_pos hq, hq, cacheOf_snoc_self]
      · rw [if_neg hq, if_neg (fun hc : _ ∧ _ => hq hc.1),
          cacheOf_snoc_ne f read done off q hq]
    rw [hupd]  -- hmm: hupd's LHS must match the cache argument syntactically
    simp only [hcond, if_mask_and]
    rw [ih (done ++ [off])]
    refine Prod.ext ?_ ?_
    · dsimp only
      rw [List.all_cons]
      cases hA : (bitGet read (bytePos f off) (off % 8) || decide (off ∈ done)) with
      | false => simp
      | true =>
        rw [all_snoc_done f read rest done off hA]
        simp
    · dsimp only
      have : done ++ [off] ++ rest = done ++ off :: rest := by simp
      rw [this]

theorem addLoop_run (f : DiskFilter) (read : ℕ → ℕ) (offs : List ℕ) :
    addLoop f read offs (fun _ => none) true
      = (allBitsSet f read offs, cacheOf f read offs) := by
  have h0 := addLoop_eq f read offs [] true
  rw [cacheOf_nil] at h0
  rw [h0, List.nil_append]
  refine Prod.ext ?_ rfl
  dsimp only
  rw [Bool.true_and, allBitsSet]
  have hpt : ∀ o : ℕ, (bitGet read (bytePos f o) (o % 8) || decide (o ∈ ([] : List ℕ)))
      = bitGet read (bytePos f o) (o % 8) := by
    intro o
    rw [decide_eq_false (List.not_mem_nil o), Bool.or_false]
  simp only [hpt]

theorem existLoop_eq (f : DiskFilter) (read : ℕ → ℕ) (offs : List ℕ) :
    ∀ (m : ℕ → Option ℕ), (∀ pos v, m pos = some v → v = read pos) →
    existLoop f read offs m
      = offs.all (fun o => bitGet read (bytePos f o) (o % 8)) := by
  induction offs with
  | nil => intro m hm; simp [existLoop]
  | cons off rest ih =>
    intro m hm
    simp only [existLoop, readCachedByte]
    rw [List.all_cons]
    cases hmp : m (bytePos f off) with
    | none =>
      dsimp only
      have hm1 : ∀ pos v,
          (fun q => if q = bytePos f off then some (read (bytePos f off)) else m q) pos
            = some v → v = read pos := by
        intro pos v hv
        dsimp only at hv
        by_cases hq : pos = bytePos f off
        · rw [if_pos hq] at hv
          rw [hq]
          exact (Option.some_injective _ hv).symm
        · exact hm pos v (by rwa [if_neg hq] at hv)
      cases hb : bitGet read (bytePos f off) (off % 8) with
      | false =>
        rw [if_pos (by
          rw [bitGet] at hb
          exact bne_eq_false_iff_eq.mp hb), Bool.false_and]
      | true =>
        rw [if_neg (by
          rw [bitGet, bne_iff_ne] at hb
          exact hb), ih _ hm1, Bool.true_and]
    | some v =>
      dsimp only
      have hv : v = read (bytePos f off) := hm _ v hmp
      subst hv
      cases hb : bitGet read (bytePos f off) (off % 8) with
      | false =>
        rw [if_pos (by
          rw [bitGet] at hb
          exact bne_eq_false_iff_eq.mp hb), Bool.false_and]
      | true =>
        rw [if_neg (by
          rw [bitGet, bne_iff_ne] at hb
          exact hb), ih _ hm, Bool.true_and]

theorem writeBack_apply (f : DiskFilter) (wfail : ℕ → Bool) (offs : List ℕ) :
    ∀ (m : ℕ → Option ℕ) (file : ℕ → ℕ) (q : ℕ),
    (writeBack f wfail offs m file).1 q =
      match m q with
      | some v => if q ∈ offs.map (bytePos f) ∧ wfail q = false then v else file q
      | none => file q := by
  induction offs with
  | nil =>
    intro m file q
    simp only [writeBack]
    cases hq : m q with
    | none => rfl
    | some v =>
      dsimp only
      rw [if_neg (fun hc : _ ∧ _ => by simp at hc)]
  | cons off rest ih =>
    intro m file q
    simp only [writeBack]
    cases hmp : m (bytePos f off) with
    | none =>
      dsimp only
      rw [ih m file q]
      cases hq : m q with
      | none => rfl
      | some v =>
        dsimp only
        by_cases hqq : q = bytePos f off
        · rw [hqq] at hq
          rw [hmp] at hq
          exact absurd hq (by simp)
        · have hiff : (q ∈ (off :: rest).map (bytePos f) ∧ wfail q = false)
              ↔ (q ∈ rest.map (bytePos f) ∧ wfail q = false) := by
            simp only [List.map_cons, List.mem_cons]
            exact ⟨fun hc => ⟨hc.1.resolve_left hqq, hc.2⟩,
                   fun hc => ⟨.inr hc.1, hc.2⟩⟩
          rw [if_congr hiff rfl rfl]
    | some v =>
      dsimp only
      rw [ih]
      by_cases hqq : q = bytePos f off
      · subst hqq
        rw [if_pos rfl]
        dsimp only
        rw [hmp]
        dsimp only
        have hmem : bytePos f off ∈ (off :: rest).map (bytePos f) := by
          simp
        cases hw : wfail (bytePos f off) with
        | true =>
          rw [if_neg (fun hc : _ ∧ _ => Bool.noConfusion hc.2)]
          rfl
        | false =>
          rw [if_pos ⟨hmem, rfl⟩]
          show (if bytePos f off = bytePos f off then v
                else file (bytePos f off)) = v
          rw [if_pos rfl]
      · dsimp only
        rw [if_neg hqq]
        cases hq : m q with
        | none =>
          dsimp only
          cases hw : wfail (bytePos f off) with
          | true => rfl
          | false =>
            show (if q = bytePos f off then v else file q) = file q
            rw [if_neg hqq]
        | some w =>
          dsimp only
          have hiff : (q ∈ rest.map (bytePos f) ∧ wfail q = false)
              ↔ (q ∈ (off :: rest).map (bytePos f) ∧ wfail q = false) := by
            simp only [List.map_cons, List.mem_cons]
            exact ⟨fun hc => ⟨.inr hc.1, hc.2⟩,
                   fun hc => ⟨hc.1.resolve_left hqq, hc.2⟩⟩
          rw [if_congr hiff rfl rfl]
          cases hw : wfail (bytePos f off) with
          | true => rfl
          | false =>
            have hfile : (bif false then file
                else fun p => if p = bytePos f off then v else file p) q = file q := by
              show (if q = bytePos f off then v else file q) = file q
              rw [if_neg hqq]
            rw [hfile]

/-! High-level characterizations of the membership operations. -/

theorem effRead_false (file : ℕ → ℕ) : effRead file (fun _ => false) = file := rfl

theorem mem_sortedOffsets (f : DiskFilter) (e : List ℕ) (off : ℕ) :
    off ∈ sortedOffsets f e ↔ off ∈ bloomOffsets f e :=
  (List.perm_insertionSort (· ≤ ·) (bloomOffsets f e)).mem_iff

theorem allBitsSet_sorted (f : DiskFilter) (file : ℕ → ℕ) (e : List ℕ) :
    allBitsSet f file (sortedOffsets f e) = allBitsSet f file (bloomOffsets f e) := by
  rw [allBitsSet, allBitsSet, Bool.eq_iff_iff, List.all_eq_true, List.all_eq_true]
  constructor
  · intro H o ho
    exact H o ((mem_sortedOffsets f e o).mpr ho)
  · intro H o ho
    exact H o ((mem_sortedOffsets f e o).mp ho)

theorem orMasks_sorted (f : DiskFilter) (e : List ℕ) (pos : ℕ) :
    orMasks f (sortedOffsets f e) pos = orMasks f (bloomOffsets f e) pos := by
  apply Nat.eq_of_testBit_eq
  intro k
  rw [Bool.eq_iff_iff, testBit_orMasks, testBit_orMasks]
  constructor
  · rintro ⟨o, ho, hb, hk⟩
    exact ⟨o, (mem_sortedOffsets f e o).mp ho, hb, hk⟩
  · rintro ⟨o, ho, hb, hk⟩
    exact ⟨o, (mem_sortedOffsets f e o).mpr ho, hb, hk⟩

theorem mem_map_sortedOffsets (f : DiskFilter) (e : List ℕ) (q : ℕ) :
    q ∈ (sortedOffsets f e).map (bytePos f) ↔ q ∈ (bloomOffsets f e).map (bytePos f) := by
  rw [List.mem_map, List.mem_map]
  constructor
  · rintro ⟨o, ho, hq⟩
    exact ⟨o, (mem_sortedOffsets f e o).mp ho, hq⟩
  · rintro ⟨o, ho, hq⟩
    exact ⟨o, (mem_sortedOffsets f e o).mpr ho, hq⟩

theorem existX_eq_all (f : DiskFilter) (file : ℕ → ℕ) (rfail : ℕ → Bool)
    (e : List ℕ) :
    ExistX f file rfail e
      = allBitsSet f (effRead file rfail) (sortedOffsets f e) := by
  rw [ExistX, allBitsSet]
  exact existLoop_eq f _ (sortedOffsets f e) (fun _ => none)
    (fun _ _ h => absurd h (by simp))

theorem exist_eq_all (f : DiskFilter) (file : ℕ → ℕ) (e : List ℕ) :
    Exist f file e = allBitsSet f file (bloomOffsets f e) := by
  rw [Exist, existX_eq_all, effRead_false, allBitsSet_sorted]

theorem existOrAddX_exist (f : DiskFilter) (file : ℕ → ℕ) (rfail wfail : ℕ → Bool)
    (e : List ℕ) (mod : Bool) :
    (ExistOrAddX f file rfail wfail e mod).exist
      = allBitsSet f (effRead file rfail) (sortedOffsets f e) := by
  rw [ExistOrAddX]
  rw [addLoop_run]
  cases h : allBitsSet f (effRead file rfail) (sortedOffsets f e) with
  | true => rw [if_pos rfl]
  | false => rw [if_neg (fun hc => Bool.noConfusion hc)]

theorem existOrAddX_modified (f : DiskFilter) (file : ℕ → ℕ)
    (rfail wfail : ℕ → Bool) (e : List ℕ) (mod : Bool) :
    (ExistOrAddX f file rfail wfail e mod).modified
      = if allBitsSet f (effRead file rfail) (sortedOffsets f e) = true
        then mod else true := by
  rw [ExistOrAddX]
  rw [addLoop_run]
  cases h : allBitsSet f (effRead file rfail) (sortedOffsets f e) with
  | true => rw [if_pos rfl, if_pos rfl]
  | false => rw [if_neg (fun hc => Bool.noConfusion hc),
      if_neg (fun hc => Bool.noConfusion hc)]

theorem existOrAddX_file (f : DiskFilter) (file : ℕ → ℕ) (rfail wfail : ℕ → Bool)
    (e : List ℕ) (mod : Bool) (q : ℕ) :
    (ExistOrAddX f file rfail wfail e mod).file q
      = if allBitsSet f (effRead file rfail) (sortedOffsets f e) = true then file q
        else if q ∈ (sortedOffsets f e).map (bytePos f) ∧ wfail q = false
             then effRead file rfail q ||| orMasks f (sortedOffsets f e) q
             else file q := by
  rw [ExistOrAddX]
  rw [addLoop_run]
  cases h : allBitsSet f (effRead file rfail) (sortedOffsets f e) with
  | true => rw [if_pos rfl, if_pos rfl]
  | false =>
    rw [if_neg (fun hc => Bool.noConfusion hc), if_neg (fun hc => Bool.noConfusion hc)]
    dsimp only
    rw [writeBack_apply]
    by_cases hmem : q ∈ (sortedOffsets f e).map (bytePos f)
    · have hc : cacheOf f (effRead file rfail) (sortedOffsets f e) q
          = some (effRead file rfail q ||| orMasks f (sortedOffsets f e) q) := by
        rw [cacheOf]
        exact if_pos hmem
      rw [hc]
    · have hc : cacheOf f (effRead file rfail) (sortedOffsets f e) q = none := by
        rw [cacheOf]
        exact if_neg hmem
      rw [hc]
      dsimp only
      rw [if_neg (fun hc2 : _ ∧ _ => hmem hc2.1)]

theorem or_absorb_of_allSet (f : DiskFilter) (file : ℕ → ℕ) (offs : List ℕ)
    (q : ℕ) (h : allBitsSet f file offs = true) :
    file q ||| orMasks f offs q = file q := by
  apply Nat.eq_of_testBit_eq
  intro k
  rw [Nat.testBit_or]
  cases hm : (orMasks f offs q).testBit k with
  | false => rw [Bool.or_false]
  | true =>
    obtain ⟨o, ho, hb, hk⟩ := (testBit_orMasks f offs q k).mp hm
    rw [allBitsSet] at h
    have hbit := List.all_eq_true.mp h o ho
    rw [bitGet_eq_testBit, hb, hk] at hbit
    rw [Bool.or_true]
    exact hbit.symm

theorem existOrAdd_exist (f : DiskFilter) (file : ℕ → ℕ) (e : List ℕ)
    (mod : Bool) :
    (ExistOrAdd f file e mod).exist = allBitsSet f file (bloomOffsets f e) := by
  rw [ExistOrAdd, existOrAddX_exist, effRead_false, allBitsSet_sorted]

theorem existOrAdd_modified (f : DiskFilter) (file : ℕ → ℕ) (e : List ℕ)
    (mod : Bool) :
    (ExistOrAdd f file e mod).modified
      = if allBitsSet f file (bloomOffsets f e) = true then mod else true := by
  rw [ExistOrAdd, existOrAddX_modified, effRead_false, allBitsSet_sorted]

theorem existOrAdd_file (f : DiskFilter) (file : ℕ → ℕ) (e : List ℕ)
    (mod : Bool) (q : ℕ) :
    (ExistOrAdd f file e mod).file q
      = file q ||| orMasks f (bloomOffsets f e) q := by
  rw [ExistOrAdd, existOrAddX_file, effRead_false, allBitsSet_sorted, orMasks_sorted]
  cases h : allBitsSet f file (bloomOffsets f e) with
  | true =>
    rw [if_pos rfl, or_absorb_of_allSet f file _ q h]
  | false =>
    rw [if_neg (fun hc => Bool.noConfusion hc)]
    by_cases hmem : q ∈ (sortedOffsets f e).map (bytePos f)
    · rw [if_pos ⟨hmem, rfl⟩]
    · rw [if_neg (fun hc : _ ∧ _ => hmem hc.1)]
      have hz : orMasks f (bloomOffsets f e) q = 0 :=
        orMasks_eq_zero f _ q (fun hc => hmem ((mem_map_sortedOffsets f e q).mpr hc))
      rw [hz, Nat.or_zero]

/-! Monotonicity of the bit field under the membership operations. -/

theorem existOrAdd_bit_mono (f : DiskFilter) (file : ℕ → ℕ) (e : List ℕ)
    (mod : Bool) (q k : ℕ) (h : (file q).testBit k = true) :
    ((ExistOrAdd f file e mod).file q).testBit k = true := by
  rw [existOrAdd_file, Nat.testBit_or, h, Bool.true_or]

theorem runOps_bit_mono (f : DiskFilter) (ops : List FilterOp) :
    ∀ (file : ℕ → ℕ) (q k : ℕ), (file q).testBit k = true →
      ((runOps f ops file) q).testBit k = true := by
  induction ops with
  | nil => intro file q k h; exact h
  | cons op rest ih =>
    intro file q k h
    cases op with
    | exist e =>
      show ((runOps f rest file) q).testBit k = true
      exact ih file q k h
    | existOrAdd e =>
      show ((runOps f rest (ExistOrAdd f file e false).file) q).testBit k = true
      exact ih _ q k (existOrAdd_bit_mono f file e false q k h)

theorem allBitsSet_mono (f : DiskFilter) (offs : List ℕ) (file file' : ℕ → ℕ)
    (hmono : ∀ q k, (file q).testBit k = true → (file' q).testBit k = true)
    (h : allBitsSet f file offs = true) : allBitsSet f file' offs = true := by
  rw [allBitsSet, List.all_eq_true] at h ⊢
  intro o ho
  rw [bitGet_eq_testBit]
  exact hmono _ _ (by rw [← bitGet_eq_testBit]; exact h o ho)

theorem allBitsSet_after (f : DiskFilter) (file : ℕ → ℕ) (e : List ℕ)
    (mod : Bool) :
    allBitsSet f (ExistOrAdd f file e mod).file (bloomOffsets f e) = true := by
  rw [allBitsSet, List.all_eq_true]
  intro o ho
  rw [bitGet_eq_testBit, existOrAdd_file, Nat.testBit_or]
  have hm : (orMasks f (bloomOffsets f e) (bytePos f o)).testBit (o % 8) = true :=
    (testBit_orMasks f _ _ _).mpr ⟨o, ho, rfl, rfl⟩
  rw [hm, Bool.or_true]

theorem allBitsSet_blank_false (f : DiskFilter) (file : ℕ → ℕ) (e : List ℕ)
    (h1 : 1 ≤ f.param.Slots) (hz : IsBlank f file) :
    allBitsSet f file (bloomOffsets f e) = false := by
  have hne : bloomOffsets f e ≠ [] := by
    rw [bloomOffsets]
    intro hc
    have hlen := congrArg List.length hc
    simp only [List.length_map, List.length_range, List.length_nil] at hlen
    omega
  obtain ⟨o, ho⟩ := List.exists_mem_of_ne_nil _ hne
  cases hall : allBitsSet f file (bloomOffsets f e) with
  | false => rfl
  | true =>
    exfalso
    rw [allBitsSet] at hall
    have hbit := List.all_eq_true.mp hall o ho
    rw [bitGet_eq_testBit] at hbit
    have hzero : file (bytePos f o) = 0 := hz _ (by rw [bytePos, fileOffset]; omega)
    rw [hzero, Nat.zero_testBit] at hbit
    exact Bool.noConfusion hbit

/-! Lemmas about `New` and the file list primitives. -/

theorem length_writeByteAt (file : List ℕ) (pos v : ℕ) :
    (writeByteAt file pos v).length = max (pos + 1) file.length := by
  rw [writeByteAt]
  by_cases h : pos < file.length
  · rw [if_pos h, List.length_set]
    omega
  · rw [if_neg h]
    simp only [List.length_append, List.length_replicate, List.length_singleton]
    omega

theorem length_writeBytesAt_two (file : List ℕ) (a b : ℕ) :
    (writeBytesAt file 0 [a, b]).length = max 2 file.length := by
  show (writeBytesAt (writeByteAt (writeByteAt file 0 a) 1 b) 2 []).length = max 2 file.length
  rw [writeBytesAt, length_writeByteAt, length_writeByteAt]
  omega

/-! Claim theorems. -/

/-- C1: for every byte sequence `e`, on a freshly created (all-bits-zero)
filter with hashCount ≥ 1 the first `ExistOrAdd e` returns false, and after
any `ExistOrAdd e` has completed on an instance, every subsequent `Exist e`
and `ExistOrAdd e` on that same instance — here after an arbitrary further
sequence of membership operations — returns true. -/
theorem C1_no_false_negatives (f : DiskFilter) (file0 file : ℕ → ℕ)
    (e : List ℕ) (ops : List FilterOp) (m1 m2 : Bool)
    (h1 : 1 ≤ f.param.Slots) (h2 : 0 < f.param.Bits) (hz : IsBlank f file0) :
    (ExistOrAdd f file0 e m1).exist = false ∧
    Exist f (runOps f ops (ExistOrAdd f file e m1).file) e = true ∧
    (ExistOrAdd f (runOps f ops (ExistOrAdd f file e m1).file) e m2).exist = true := by
  refine ⟨?_, ?_, ?_⟩
  · rw [existOrAdd_exist, allBitsSet_blank_false f file0 e h1 hz]
  · rw [exist_eq_all]
    exact allBitsSet_mono f _ _ _ (runOps_bit_mono f ops _)
      (allBitsSet_after f file e m1)
  · rw [existOrAdd_exist]
    exact allBitsSet_mono f _ _ _ (runOps_bit_mono f ops _)
      (allBitsSet_after f file e m1)

/-- Witness for C1 at a concrete filter, entry and operation sequence. -/
theorem C1_no_false_negatives_witness :
    1 ≤ (⟨⟨2, 11, fun _ => (3, 5)⟩, 0⟩ : DiskFilter).param.Slots ∧
    0 < (⟨⟨2, 11, fun _ => (3, 5)⟩, 0⟩ : DiskFilter).param.Bits ∧
    IsBlank ⟨⟨2, 11, fun _ => (3, 5)⟩, 0⟩ (fun _ => 0) ∧
    ((ExistOrAdd ⟨⟨2, 11, fun _ => (3, 5)⟩, 0⟩ (fun _ => 0) [7] false).exist = false ∧
     Exist ⟨⟨2, 11, fun _ => (3, 5)⟩, 0⟩
       (runOps ⟨⟨2, 11, fun _ => (3, 5)⟩, 0⟩ [.exist [1], .existOrAdd [2]]
         (ExistOrAdd ⟨⟨2, 11, fun _ => (3, 5)⟩, 0⟩ (fun _ => 0) [7] false).file) [7] = true ∧
     (ExistOrAdd ⟨⟨2, 11, fun _ => (3, 5)⟩, 0⟩
       (runOps ⟨⟨2, 11, fun _ => (3, 5)⟩, 0⟩ [.exist [1], .existOrAdd [2]]
         (ExistOrAdd ⟨⟨2, 11, fun _ => (3, 5)⟩, 0⟩ (fun _ => 0) [7] false).file) [7]
       true).exist = true) :=
  ⟨by decide, by decide, fun q _ => rfl,
   C1_no_false_negatives ⟨⟨2, 11, fun _ => (3, 5)⟩, 0⟩ (fun _ => 0) (fun _ => 0)
     [7] [.exist [1], .existOrAdd [2]] false true (by decide) (by decide)
     (fun q _ => rfl)⟩

/-- C8: no sequence of Exist / ExistOrAdd calls ever clears a set bit (the
one-bits are non-decreasing across every operation sequence; Exist performs no
writes, and each byte ExistOrAdd writes is the byte it read with the offset
masks OR-ed in). -/
theorem C8_bits_monotone (f : DiskFilter) (ops : List FilterOp)
    (file : ℕ → ℕ) (e : List ℕ) (mod : Bool) (q k : ℕ)
    (h : (file q).testBit k = true) :
    ((runOps f ops file) q).testBit k = true ∧
    (ExistOrAdd f file e mod).file q = file q ||| orMasks f (bloomOffsets f e) q :=
  ⟨runOps_bit_mono f ops file q k h, existOrAdd_file f file e mod q⟩

/-- Witness for C8 at a concrete filter and operation sequence. -/
theorem C8_bits_monotone_witness :
    ((fun p : ℕ => if p = 3 then 4 else 0) 3).testBit 2 = true ∧
    (((runOps ⟨⟨2, 11, fun _ => (3, 5)⟩, 0⟩ [.existOrAdd [9], .exist [4]]
        (fun p => if p = 3 then 4 else 0)) 3).testBit 2 = true ∧
     (ExistOrAdd ⟨⟨2, 11, fun _ => (3, 5)⟩, 0⟩ (fun p => if p = 3 then 4 else 0)
        [9] false).file 3
       = (fun p : ℕ => if p = 3 then 4 else 0) 3
           ||| orMasks ⟨⟨2, 11, fun _ => (3, 5)⟩, 0⟩
                 (bloomOffsets ⟨⟨2, 11, fun _ => (3, 5)⟩, 0⟩ [9]) 3) :=
  ⟨by decide,
   C8_bits_monotone ⟨⟨2, 11, fun _ => (3, 5)⟩, 0⟩ [.existOrAdd [9], .exist [4]]
     (fun p => if p = 3 then 4 else 0) [9] false 3 2 (by decide)⟩

/-- C10: with hashCount (Slots) = 0, Exist returns true and ExistOrAdd
returns true for every entry, performing no write and leaving the dirty flag
unchanged (the all-bits-set conjunction is vacuously true over zero
offsets). -/
theorem C10_zero_slots (f : DiskFilter) (file : ℕ → ℕ) (e : List ℕ)
    (mod : Bool) (q : ℕ) (h : f.param.Slots = 0) :
    Exist f file e = true ∧
    (ExistOrAdd f file e mod).exist = true ∧
    (ExistOrAdd f file e mod).file q = file q ∧
    (ExistOrAdd f file e mod).modified = mod := by
  have hoffs : bloomOffsets f e = [] := by
    rw [bloomOffsets, h]
    rfl
  have hall : allBitsSet f file (bloomOffsets f e) = true := by
    rw [hoffs]
    rfl
  refine ⟨?_, ?_, ?_, ?_⟩
  · rw [exist_eq_all, hall]
  · rw [existOrAdd_exist, hall]
  · rw [existOrAdd_file, hoffs]
    show file q ||| 0 = file q
    rw [Nat.or_zero]
  · rw [existOrAdd_modified, hall, if_pos rfl]

/-- Witness for C10 at a concrete zero-slot filter. -/
theorem C10_zero_slots_witness :
    (⟨⟨0, 11, fun _ => (3, 5)⟩, 4⟩ : DiskFilter).param.Slots = 0 ∧
    (Exist ⟨⟨0, 11, fun _ => (3, 5)⟩, 4⟩ (fun _ => 0) [1] = true ∧
     (ExistOrAdd ⟨⟨0, 11, fun _ => (3, 5)⟩, 4⟩ (fun _ => 0) [1] false).exist = true ∧
     (ExistOrAdd ⟨⟨0, 11, fun _ => (3, 5)⟩, 4⟩ (fun _ => 0) [1] false).file 6
       = (fun _ : ℕ => (0 : ℕ)) 6 ∧
     (ExistOrAdd ⟨⟨0, 11, fun _ => (3, 5)⟩, 4⟩ (fun _ => 0) [1] false).modified
       = false) :=
  ⟨rfl, C10_zero_slots ⟨⟨0, 11, fun _ => (3, 5)⟩, 4⟩ (fun _ => 0) [1] false 6 rfl⟩

/-- C7 counterexample: with hash values x = 2^64 - 1, y = 1 (both valid
uint64 values), hashCount 2 and bitCount 3, ExistOrAdd on an all-zero file
writes the byte 1 at file offset 2: only bit 0 of the bit field is set.  The
claim's formula (x + i*y) mod m read over the integers predicts for i = 1 the
position (2^64 - 1 + 1) mod 3 = 1, but bit 1 of that byte is not set: the Go
uint64 addition wraps to 0 before the reduction mod 3. -/
theorem C7_counterexample :
    (ExistOrAdd ⟨⟨2, 3, fun _ => (2 ^ 64 - 1, 1)⟩, 0⟩ (fun _ => 0) [] false).file 2
      = 1 ∧
    ((2 ^ 64 - 1) + 1 * 1) % 3 = 1 ∧
    Nat.testBit 1 1 = false :=
  ⟨by decide, by decide, by decide⟩

/-- C7 (amended): the k bit positions consulted by Exist and set by
ExistOrAdd are exactly offset(i) = ((x + i·y) mod 2^64) mod m for
i = 0..k-1 — the formula with the uint64 wrap of the Go arithmetic
(`bloomOffsets` is by definition the list of these offsets): Exist is the
conjunction of exactly those bits, ExistOrAdd returns that conjunction, and
the written file differs from the read file exactly by OR-ing the masks of
those positions into their bytes. -/
theorem C7_offsets_amended (f : DiskFilter) (file : ℕ → ℕ) (e : List ℕ)
    (mod : Bool) (q : ℕ) (h : 0 < f.param.Bits) :
    Exist f file e
      = (bloomOffsets f e).all (fun off => bitGet file (bytePos f off) (off % 8)) ∧
    (ExistOrAdd f file e mod).exist
      = (bloomOffsets f e).all (fun off => bitGet file (bytePos f off) (off % 8)) ∧
    (ExistOrAdd f file e mod).file q
      = file q ||| orMasks f (bloomOffsets f e) q := by
  refine ⟨?_, ?_, existOrAdd_file f file e mod q⟩
  · rw [exist_eq_all, allBitsSet]
  · rw [existOrAdd_exist, allBitsSet]

/-- Witness for the amended C7 at a concrete filter and file. -/
theorem C7_offsets_amended_witness :
    0 < (⟨⟨2, 11, fun _ => (3, 5)⟩, 0⟩ : DiskFilter).param.Bits ∧
    (Exist ⟨⟨2, 11, fun _ => (3, 5)⟩, 0⟩ (fun _ => 9) [2]
       = (bloomOffsets ⟨⟨2, 11, fun _ => (3, 5)⟩, 0⟩ [2]).all
           (fun off => bitGet (fun _ => 9)
             (bytePos ⟨⟨2, 11, fun _ => (3, 5)⟩, 0⟩ off) (off % 8)) ∧
     (ExistOrAdd ⟨⟨2, 11, fun _ => (3, 5)⟩, 0⟩ (fun _ => 9) [2] false).exist
       = (bloomOffsets ⟨⟨2, 11, fun _ => (3, 5)⟩, 0⟩ [2]).all
           (fun off => bitGet (fun _ => 9)
             (bytePos ⟨⟨2, 11, fun _ => (3, 5)⟩, 0⟩ off) (off % 8)) ∧
     (ExistOrAdd ⟨⟨2, 11, fun _ => (3, 5)⟩, 0⟩ (fun _ => 9) [2] false).file 3
       = (fun _ : ℕ => (9 : ℕ)) 3
           ||| orMasks ⟨⟨2, 11, fun _ => (3, 5)⟩, 0⟩
                 (bloomOffsets ⟨⟨2, 11, fun _ => (3, 5)⟩, 0⟩ [2]) 3) :=
  ⟨by decide,
   C7_offsets_amended ⟨⟨2, 11, fun _ => (3, 5)⟩, 0⟩ (fun _ => 9) [2] false 3
     (by decide)⟩

/-- C5 counterexample: with bitCount = 11, Size returns 11 / 8 = 1 (integer
division, i.e. floor), not ceil(11/8) = 2 as the claim states. -/
theorem C5_counterexample :
    Size ⟨⟨1, 11, fun _ => (0, 0)⟩, 0⟩ = 1 ∧ (11 + 8 - 1) / 8 = 2 :=
  ⟨rfl, rfl⟩

/-- C5 (amended): New sparse-allocates the fresh file by writing a single
byte at offset 2 + metadataSize + ⌊bitCount/8⌋ (total length
2 + metadataSize + ⌊bitCount/8⌋ + 1, which always covers the byte of every
bit offset), and Size() returns ⌊bitCount/8⌋ — floor, not ceil. -/
theorem C5_size_amended (ctrl : Controller) (off : ℕ)
    (hu : (ctrl.GetParam none).2 = none)
    (hoff : off < (ctrl.GetParam none).1.Bits) :
    (New ctrl []).2.length
      = LenOfMetadataSize + ctrl.MetadataSize + (ctrl.GetParam none).1.Bits / 8 + 1 ∧
    Size ⟨(ctrl.GetParam none).1, ctrl.MetadataSize⟩
      = (ctrl.GetParam none).1.Bits / 8 ∧
    bytePos ⟨(ctrl.GetParam none).1, ctrl.MetadataSize⟩ off
      < (New ctrl []).2.length := by
  have hfile : (New ctrl []).2 = writeBytesAt
      (writeByteAt []
        (LenOfMetadataSize + ctrl.MetadataSize + (ctrl.GetParam none).1.Bits / 8) 0)
      0 [ctrl.MetadataSize % 256, ctrl.MetadataSize / 256 % 256] := by
    rw [New, if_pos (show ([] : List ℕ).length = 0 from rfl)]
    simp only [finishNew]
    rw [hu]
  have hlen : (New ctrl []).2.length
      = LenOfMetadataSize + ctrl.MetadataSize + (ctrl.GetParam none).1.Bits / 8 + 1 := by
    rw [hfile, length_writeBytesAt_two, length_writeByteAt]
    show max 2 (max _ ([] : List ℕ).length) = _
    rw [LenOfMetadataSize]
    simp only [List.length_nil]
    omega
  refine ⟨hlen, rfl, ?_⟩
  rw [hlen, bytePos, fileOffset]
  dsimp only
  have hdiv : off / 8 ≤ (ctrl.GetParam none).1.Bits / 8 :=
    Nat.div_le_div_right (le_of_lt hoff)
  omega

/-- Witness for the amended C5 at a concrete controller with bitCount 11. -/
theorem C5_size_amended_witness :
    ((⟨.no, 0, fun _ => (⟨1, 11, fun _ => (0, 0)⟩, none)⟩ : Controller).GetParam
        none).2 = none ∧
    10 < ((⟨.no, 0, fun _ => (⟨1, 11, fun _ => (0, 0)⟩, none)⟩ : Controller).GetParam
        none).1.Bits ∧
    ((New ⟨.no, 0, fun _ => (⟨1, 11, fun _ => (0, 0)⟩, none)⟩ []).2.length
       = LenOfMetadataSize + 0 + 11 / 8 + 1 ∧
     Size ⟨⟨1, 11, fun _ => (0, 0)⟩, 0⟩ = 11 / 8 ∧
     bytePos ⟨⟨1, 11, fun _ => (0, 0)⟩, 0⟩ 10
       < (New ⟨.no, 0, fun _ => (⟨1, 11, fun _ => (0, 0)⟩, none)⟩ []).2.length) :=
  ⟨rfl, by decide,
   C5_size_amended ⟨.no, 0, fun _ => (⟨1, 11, fun _ => (0, 0)⟩, none)⟩ 10 rfl
     (by decide)⟩

/-- C2 counterexample: on an empty (freshly created) file with declared
metadata size 1 and a GetParam returning replacement metadata of length 2,
New does fail with the metadata-size-mismatch error — but the file has
already been modified by that open: the sparse-allocation byte and the 2-byte
header were written before the length check. -/
theorem C2_counterexample :
    (New ⟨.no, 1, fun _ => (⟨1, 8, fun _ => (0, 0)⟩, some [0, 0])⟩ []).1
      = .error .inconsistentMetadataSize ∧
    (New ⟨.no, 1, fun _ => (⟨1, 8, fun _ => (0, 0)⟩, some [0, 0])⟩ []).2 ≠ [] :=
  ⟨rfl, by decide⟩

/-- C2 (amended): on a NON-EMPTY existing file, if the persisted 2-byte
header differs from the declared metadataSize, or if (with a matching header
and a readable metadata region) GetParam returns non-nil replacement metadata
whose length differs from the declared metadataSize, then New fails with
InconsistentMetadataSizeErr and the file is left unmodified.  (On an empty
file the same wrong-length-metadata error is returned, but the allocation
byte and header have already been written — see the counterexample.) -/
theorem C2_metadata_mismatch_amended (ctrl : Controller) (file : List ℕ)
    (h : (LenOfMetadataSize ≤ file.length ∧ headerVal file ≠ ctrl.MetadataSize) ∨
         (LenOfMetadataSize + ctrl.MetadataSize ≤ file.length ∧
          headerVal file = ctrl.MetadataSize ∧
          (ctrl.GetParam
            (some ((file.drop LenOfMetadataSize).take ctrl.MetadataSize))).2 ≠ none ∧
          ((ctrl.GetParam
            (some ((file.drop LenOfMetadataSize).take ctrl.MetadataSize))).2.getD
              []).length ≠ ctrl.MetadataSize)) :
    New ctrl file = (.error .inconsistentMetadataSize, file) := by
  have hlen2 : 2 ≤ file.length := by
    rcases h with ⟨hl, _⟩ | ⟨hl, _, _, _⟩
    · exact hl
    · have hl2 : LenOfMetadataSize ≤ file.length :=
        le_trans (Nat.le_add_right _ _) hl
      exact hl2
  rw [New, if_neg (by omega),
    if_neg (show ¬file.length < LenOfMetadataSize from Nat.not_lt.mpr hlen2)]
  rcases h with ⟨_, hh⟩ | ⟨hl, hh, hup, hbad⟩
  · rw [if_pos hh]
  · rw [if_neg (not_not_intro hh), if_neg (Nat.not_lt.mpr hl)]
    obtain ⟨md, hmd⟩ := Option.ne_none_iff_exists'.mp hup
    rw [hmd] at hbad
    simp only [Option.getD_some] at hbad
    simp only [finishNew]
    rw [hmd]
    dsimp only
    rw [if_pos hbad]

/-- Witness for the amended C2: a non-empty file whose header matches but
whose GetParam returns wrong-length replacement metadata. -/
theorem C2_metadata_mismatch_amended_witness :
    ((LenOfMetadataSize ≤ ([1, 0, 9] : List ℕ).length ∧
      headerVal [1, 0, 9]
        ≠ (⟨.no, 1, fun _ => (⟨1, 8, fun _ => (0, 0)⟩, some [0, 0])⟩ :
            Controller).MetadataSize) ∨
     (LenOfMetadataSize
        + (⟨.no, 1, fun _ => (⟨1, 8, fun _ => (0, 0)⟩, some [0, 0])⟩ :
            Controller).MetadataSize ≤ ([1, 0, 9] : List ℕ).length ∧
      headerVal [1, 0, 9]
        = (⟨.no, 1, fun _ => (⟨1, 8, fun _ => (0, 0)⟩, some [0, 0])⟩ :
            Controller).MetadataSize ∧
      ((⟨.no, 1, fun _ => (⟨1, 8, fun _ => (0, 0)⟩, some [0, 0])⟩ :
          Controller).GetParam
        (some ((([1, 0, 9] : List ℕ).drop LenOfMetadataSize).take
          (⟨.no, 1, fun _ => (⟨1, 8, fun _ => (0, 0)⟩, some [0, 0])⟩ :
            Controller).MetadataSize))).2 ≠ none ∧
      (((⟨.no, 1, fun _ => (⟨1, 8, fun _ => (0, 0)⟩, some [0, 0])⟩ :
          Controller).GetParam
        (some ((([1, 0, 9] : List ℕ).drop LenOfMetadataSize).take
          (⟨.no, 1, fun _ => (⟨1, 8, fun _ => (0, 0)⟩, some [0, 0])⟩ :
            Controller).MetadataSize))).2.getD []).length
        ≠ (⟨.no, 1, fun _ => (⟨1, 8, fun _ => (0, 0)⟩, some [0, 0])⟩ :
            Controller).MetadataSize)) ∧
    New ⟨.no, 1, fun _ => (⟨1, 8, fun _ => (0, 0)⟩, some [0, 0])⟩ [1, 0, 9]
      = (.error .inconsistentMetadataSize, [1, 0, 9]) :=
  ⟨.inr ⟨by decide, by decide, by decide, by decide⟩,
   C2_metadata_mismatch_amended
     ⟨.no, 1, fun _ => (⟨1, 8, fun _ => (0, 0)⟩, some [0, 0])⟩ [1, 0, 9]
     (.inr ⟨by decide, by decide, by decide, by decide⟩)⟩

/-- C9 counterexample: New performs no validation of the parameters returned
by GetParam: opening a fresh file with a GetParam that returns bitCount = 0
succeeds and yields an instance whose bitCount is 0, violating the claimed
invariant (a subsequent Exist/ExistOrAdd would reduce modulo zero — a
division-by-zero panic in Go). -/
theorem C9_counterexample :
    okBits (New ⟨.no, 0, fun _ => (⟨1, 0, fun _ => (0, 0)⟩, none)⟩ []).1
      = some 0 := rfl

/-- C9 (amended): the invariant bitCount > 0, hashCount ≥ 1 is not enforced
by the code: New passes whatever parameters GetParam returns straight
through.  It is a caller obligation; whenever the supplied bitCount is
positive, every computed bloom offset is < bitCount, so the modulo in the
offset computation is well-defined. -/
theorem C9_invariant_amended (ctrl : Controller) (p : FilterParam)
    (x y i : ℕ) (hu : (ctrl.GetParam none).2 = none) (hb : 0 < p.Bits) :
    (New ctrl []).1 = .ok (ctrl.GetParam none).1 ∧
    bloomOffset p x y i < p.Bits := by
  constructor
  · rw [New, if_pos (show ([] : List ℕ).length = 0 from rfl)]
    simp only [finishNew]
    rw [hu]
  · exact Nat.mod_lt _ hb

/-- Witness for the amended C9 at a concrete controller and parameters. -/
theorem C9_invariant_amended_witness :
    ((⟨.no, 0, fun _ => (⟨1, 8, fun _ => (0, 0)⟩, none)⟩ : Controller).GetParam
        none).2 = none ∧
    0 < (⟨1, 8, fun _ => (0, 0)⟩ : FilterParam).Bits ∧
    ((New ⟨.no, 0, fun _ => (⟨1, 8, fun _ => (0, 0)⟩, none)⟩ []).1
       = .ok ((⟨.no, 0, fun _ => (⟨1, 8, fun _ => (0, 0)⟩, none)⟩ :
           Controller).GetParam none).1 ∧
     bloomOffset ⟨1, 8, fun _ => (0, 0)⟩ 3 5 1 < (⟨1, 8, fun _ => (0, 0)⟩ :
       FilterParam).Bits) :=
  ⟨rfl, by decide,
   C9_invariant_amended ⟨.no, 0, fun _ => (⟨1, 8, fun _ => (0, 0)⟩, none)⟩
     ⟨1, 8, fun _ => (0, 0)⟩ 3 5 1 rfl (by decide)⟩

/-- C6 counterexample: read failures inside Exist are silently swallowed, not
propagated: on a file whose every byte is 5 (bit 0 set everywhere, so an
error-free Exist returns true), an Exist in which every ReadAt fails returns
plain false — exactly the result of an error-free run on an all-zero file.
No error reaches the caller (the return type carries none), and the failure
silently flipped the answer. -/
theorem C6_counterexample :
    ExistX ⟨⟨1, 8, fun _ => (0, 0)⟩, 0⟩ (fun _ => 5) (fun _ => true) []
      = ExistX ⟨⟨1, 8, fun _ => (0, 0)⟩, 0⟩ (fun _ => 0) (fun _ => false) [] ∧
    ExistX ⟨⟨1, 8, fun _ => (0, 0)⟩, 0⟩ (fun _ => 5) (fun _ => true) [] = false ∧
    Exist ⟨⟨1, 8, fun _ => (0, 0)⟩, 0⟩ (fun _ => 5) [] = true :=
  ⟨rfl, rfl, by decide⟩

/-- C6 (amended): I/O failures in New are propagated to the caller (e.g. the
header read failing with EOF on a 1-byte file), but read and write failures
inside Exist and ExistOrAdd are silently ignored: a failed single-byte read
acts as a zero byte (the results equal those of an error-free run on the
zero-substituted bytes), and a byte whose write fails silently keeps its old
content while the call still reports success. -/
theorem C6_io_amended (ctrl : Controller) (b : ℕ) (f : DiskFilter)
    (file : ℕ → ℕ) (rfail wfail : ℕ → Bool) (e : List ℕ) (mod : Bool)
    (q : ℕ) (hw : wfail q = true) :
    New ctrl [b] = (.error .readEOF, [b]) ∧
    ExistX f file rfail e = Exist f (effRead file rfail) e ∧
    (ExistOrAddX f file rfail wfail e mod).exist = ExistX f file rfail e ∧
    (ExistOrAddX f file rfail wfail e mod).file q = file q := by
  refine ⟨?_, rfl, ?_, ?_⟩
  · rw [New, if_neg (show ¬([b] : List ℕ).length = 0 by simp),
      if_pos (show ([b] : List ℕ).length < LenOfMetadataSize by
        rw [LenOfMetadataSize]; simp)]
  · rw [existOrAddX_exist, existX_eq_all]
  · rw [existOrAddX_file]
    cases hall : allBitsSet f (effRead file rfail) (sortedOffsets f e) with
    | true => rw [if_pos rfl]
    | false =>
      rw [if_neg (fun hc => Bool.noConfusion hc),
        if_neg (fun hc : _ ∧ _ => by rw [hw] at hc; exact Bool.noConfusion hc.2)]

/-- Witness for the amended C6 at concrete inputs with a failing write. -/
theorem C6_io_amended_witness :
    (fun _ : ℕ => true) 2 = true ∧
    (New ⟨.no, 0, fun _ => (⟨1, 8, fun _ => (0, 0)⟩, none)⟩ [7]
       = (.error .readEOF, [7]) ∧
     ExistX ⟨⟨1, 8, fun _ => (0, 0)⟩, 0⟩ (fun _ => 0) (fun _ => false) [3]
       = Exist ⟨⟨1, 8, fun _ => (0, 0)⟩, 0⟩
           (effRead (fun _ => 0) (fun _ => false)) [3] ∧
     (ExistOrAddX ⟨⟨1, 8, fun _ => (0, 0)⟩, 0⟩ (fun _ => 0) (fun _ => false)
        (fun _ => true) [3] false).exist
       = ExistX ⟨⟨1, 8, fun _ => (0, 0)⟩, 0⟩ (fun _ => 0) (fun _ => false) [3] ∧
     (ExistOrAddX ⟨⟨1, 8, fun _ => (0, 0)⟩, 0⟩ (fun _ => 0) (fun _ => false)
        (fun _ => true) [3] false).file 2 = (fun _ : ℕ => (0 : ℕ)) 2) :=
  ⟨rfl,
   C6_io_amended ⟨.no, 0, fun _ => (⟨1, 8, fun _ => (0, 0)⟩, none)⟩ 7
     ⟨⟨1, 8, fun _ => (0, 0)⟩, 0⟩ (fun _ => 0) (fun _ => false) (fun _ => true)
     [3] false 2 rfl⟩

/-- C4 counterexample: at p = 9/10 — a valid target false-positive rate,
0 < p < 1 — the hash count computed by OptimalParam is 0, not at least 1:
-ln(0.9)·log2(e) ≈ 0.152, so adding 0.5 and truncating gives 0.  (The float64
arithmetic is idealized as exact reals; the value is far from the 0.5
rounding boundary, so the float computation truncates to 0 as well.) -/
theorem C4_counterexample :
    (0 : ℝ) < 9 / 10 ∧ (9 : ℝ) / 10 < 1 ∧ OptimalParamSlots (9 / 10) = 0 := by
  refine ⟨by norm_num, by norm_num, ?_⟩
  rw [OptimalParamSlots, Int.floor_eq_zero_iff, Set.mem_Ico]
  have hlog2 : (0.6931471803 : ℝ) < Real.log 2 := Real.log_two_gt_d9
  have hpos2 : (0 : ℝ) < Real.log 2 := lt_trans (by norm_num) hlog2
  have hlog : Real.log ((9 : ℝ) / 10) ≤ 0 :=
    Real.log_nonpos (by norm_num) (by norm_num)
  have hneg : -Real.log ((9 : ℝ) / 10) = Real.log ((10 : ℝ) / 9) := by
    rw [show ((10 : ℝ) / 9) = ((9 : ℝ) / 10)⁻¹ by norm_num, Real.log_inv]
  have hub : Real.log ((10 : ℝ) / 9) ≤ 1 / 9 := by
    have hs := Real.log_le_sub_one_of_pos (show (0 : ℝ) < 10 / 9 by norm_num)
    have : (10 : ℝ) / 9 - 1 = 1 / 9 := by norm_num
    linarith
  have hinv : 1 / Real.log 2 ≤ 1 / 0.6931471803 :=
    one_div_le_one_div_of_le (by norm_num) (le_of_lt hlog2)
  have hinvpos : (0 : ℝ) ≤ 1 / Real.log 2 := le_of_lt (by positivity)
  constructor
  · have h1 : 0 ≤ -Real.log ((9 : ℝ) / 10) := by linarith
    have h2 := mul_nonneg h1 hinvpos
    linarith
  · have hmul : -Real.log ((9 : ℝ) / 10) * (1 / Real.log 2)
        ≤ (1 / 9) * (1 / 0.6931471803) := by
      rw [hneg]
      exact mul_le_mul hub hinv hinvpos (by norm_num)
    have hsmall : ((1 : ℝ) / 9) * (1 / 0.6931471803) < 1 / 2 := by norm_num
    linarith

/-- C4 (amended): the hash count of OptimalParam (float64 idealized as exact
reals) equals round(-ln p · log2 e) and is nonnegative, but it is NOT clamped
to a minimum of 1: no such clamp exists in the code, and the value is 0 for p
close to 1 (see the counterexample at p = 0.9). -/
theorem C4_slots_amended (p : ℝ) (h0 : 0 < p) (h1 : p < 1) :
    OptimalParamSlots p = round (-Real.log p * (1 / Real.log 2)) ∧
    0 ≤ OptimalParamSlots p := by
  constructor
  · rw [OptimalParamSlots, round_eq]
  · rw [OptimalParamSlots]
    apply Int.floor_nonneg.mpr
    have hlp : Real.log p < 0 := Real.log_neg h0 h1
    have hl2 : (0 : ℝ) < Real.log 2 := Real.log_pos (by norm_num)
    have hm : 0 ≤ -Real.log p * (1 / Real.log 2) :=
      mul_nonneg (by linarith) (le_of_lt (by positivity))
    linarith

/-- Witness for the amended C4 at p = 1/2. -/
theorem C4_slots_amended_witness :
    (0 : ℝ) < 1 / 2 ∧ (1 : ℝ) / 2 < 1 ∧
    (OptimalParamSlots (1 / 2)
       = round (-Real.log ((1 : ℝ) / 2) * (1 / Real.log 2)) ∧
     0 ≤ OptimalParamSlots (1 / 2)) :=
  ⟨by norm_num, by norm_num, C4_slots_amended (1 / 2) (by norm_num) (by norm_num)⟩

end DiskBloom
